import Mathlib

/-!
Shallow embedding of the mineable-blockchain core of this repository:
the `MineableTransaction` / `MineableBlock` / `MineableChain` data model,
the proof-of-work mining routine, and the two validation layers
(`isValidTransaction` / `isValidBlock` / `isValidChain` from the structural
validator module, and `isValidMineableChain` from the mining module).

JavaScript semantics that matter here are modelled explicitly:
- `null`/absent fields become `Option`; a thrown `TypeError` becomes `none`
  in an `Option Bool`-returning validator;
- JavaScript number arithmetic on the balance map is modelled by `JNum`,
  which has an explicit `NaN` value (`undefined + n` is `NaN`, `NaN` is
  falsy, `NaN >= n` is false);
- string truthiness (the empty string is falsy) is modelled by `jsTruthyStr`.

The base `Block`/`Blockchain` classes and the `signing` module are not part
of the provided source; they are modelled from the spec where noted, and the
block hash function is kept abstract as a parameter `H : HashFn`.
-/

/-- JavaScript `Array.prototype.includes` (SameValueZero up to `BEq`). -/
def includes [BEq α] : List α → α → Bool
  | [], _ => false
  | x :: l, a => x == a || includes l a

/-- JavaScript `Array.prototype.map` over a callback that may throw:
`none` is the thrown exception, propagated from the first failing element. -/
def mapThrow (f : α → Option β) : List α → Option (List β)
  | [] => some []
  | a :: l =>
    match f a with
    | none => none
    | some b =>
      match mapThrow f l with
      | none => none
      | some bs => some (b :: bs)

/-- JavaScript string coercion of a possibly-`null` string
(`'' + null` is `"null"`). -/
def jsStringOf : Option String → String
  | none => "null"
  | some s => s

/-- JavaScript truthiness of a possibly-`null` string: `null` and the empty
string are falsy. -/
def jsTruthyStr : Option String → Bool
  | none => false
  | some s => !(s == "")

/-- `leadingZeros` from the mining module:
`'0'.repeat(len) === str.slice(0, len)`. -/
def leadingZeros (str : String) (len : Nat) : Bool :=
  List.replicate len '0' == str.toList.take len

/-- `leadingZeros` applied to a block's stored hash, which may be absent:
JavaScript throws a `TypeError` (`slice` of `null`/`undefined`), modelled as
`none`. -/
def leadingZerosJS (hash : Option String) (len : Nat) : Option Bool :=
  match hash with
  | none => none
  | some s => some (leadingZeros s len)

/-- Modelled from the spec (§6): the identity provider's
`publicKeyOf(privateKey) -> identity`; `signing.js` is not in the provided
source, so keys are concrete strings and the public key is derived
injectively. -/
def getPublicKey (privateKey : String) : String :=
  "pub:" ++ privateKey

/-- Modelled from the spec (§6): `sign(privateKey, message) -> signature`.
The signature determines the signing identity and the exact message, so
that `verify` can succeed exactly on the signed message. -/
def sign (privateKey : String) (message : String) : String :=
  "sig:" ++ getPublicKey privateKey ++ ":" ++ message

/-- Modelled from the spec (§6): `verify(identity, message, signature) ->
bool`, succeeding exactly when `signature` was produced over `message` by
the key behind `identity`. -/
def verify (pub : String) (message : String) (signature : String) : Bool :=
  signature == "sig:" ++ pub ++ ":" ++ message

/-- `verify` as called with a transaction's `source`, which may be `null`;
per the spec (§6) the provider expects a real identity, so a `null` key
never verifies. -/
def verifyJS (src : Option String) (message : String) (signature : String) : Bool :=
  match src with
  | none => false
  | some pub => verify pub message signature

/-- The `MineableTransaction` data: `source` is `null` for reward
transactions, `amount` is a JavaScript number (integer-valued here). -/
structure MineableTransaction where
  source : Option String
  recipient : String
  amount : Int
  signature : String
deriving DecidableEq

/-- The `MineableTransaction(privateKey, recipient = null, amount)`
constructor:
`this.source = (recipient) ? signing.getPublicKey(privateKey) : null`,
`this.recipient = recipient || signing.getPublicKey(privateKey)`,
`this.signature = signing.sign(privateKey, '' + this.source + recipient + amount)`
— note the signed message uses the `recipient` argument, not the stored
`this.recipient`. -/
def mkMineableTransaction (privateKey : String) (recipient : Option String)
    (amount : Int) : MineableTransaction :=
  let src : Option String :=
    if jsTruthyStr recipient then some (getPublicKey privateKey) else none
  { source := src
    recipient :=
      if jsTruthyStr recipient then recipient.getD "" else getPublicKey privateKey
    amount := amount
    signature :=
      sign privateKey (jsStringOf src ++ jsStringOf recipient ++ toString amount) }

/-- A (mineable) block. `previousHash` is `null` for genesis; `nonce` and
`hash` are absent until mined. JavaScript's `null` and `undefined` are both
modelled as `none`: the one place the code distinguishes them
(`hashes.includes(null)` in `isValidChain`) yields the same overall verdict
either way, because a block with an absent hash also fails `isValidBlock`. -/
structure MineableBlock where
  transactions : List MineableTransaction
  previousHash : Option String
  nonce : Option Nat
  hash : Option String
deriving DecidableEq

/-- The abstract block hash function: per the spec (§6) the block hash is a
function of the transaction sequence, `previousHash`, and `nonce`; the
concrete digest (`crypto` sha) lives outside the provided source. -/
def HashFn : Type :=
  List MineableTransaction → Option String → Option Nat → String

/-- The `MineableChain` data: `blocks`, the hard-coded `difficulty` and
`reward`, and the internal `pendingTransactions` queue. -/
structure MineableChain where
  blocks : List MineableBlock
  difficulty : Nat
  reward : Int
  pendingTransactions : List MineableTransaction
deriving DecidableEq

/-- Modelled from the spec (§3, glossary): the base `Blockchain`
constructor's genesis block — no predecessor, no transactions — with its
hash computed at construction by the base `Block` (`calculateHash(0)`),
which `MineableBlock`'s deletes presuppose. -/
def genesisBlock (H : HashFn) : MineableBlock :=
  { transactions := []
    previousHash := none
    nonce := some 0
    hash := some (H [] none (some 0)) }

/-- The `MineableChain` constructor: genesis from the base class, then the
hard-coded `difficulty = 2`, `reward = 5`, and an empty pending queue. It
takes no policy parameters (`H` is the ambient hash primitive, not an
argument of the JavaScript constructor). -/
def mineableChainNew (H : HashFn) : MineableChain :=
  { blocks := [genesisBlock H]
    difficulty := 2
    reward := 5
    pendingTransactions := [] }

/-- `addTransaction`: `this.pendingTransactions.push(transaction)`. -/
def addTransaction (c : MineableChain) (t : MineableTransaction) : MineableChain :=
  { c with pendingTransactions := c.pendingTransactions ++ [t] }

/-- A JavaScript number as it occurs in the replay balance map: either a
real (integer-valued) number or `NaN` (the result of `undefined + n`). -/
inductive JNum where
  | nan : JNum
  | num (n : Int) : JNum
deriving DecidableEq

/-- Association-list lookup, modelling JavaScript property access
`state[key]` (`none` = `undefined`). -/
def lookupA [BEq κ] : List (κ × β) → κ → Option β
  | [], _ => none
  | (k, v) :: rest, s => if k == s then some v else lookupA rest s

/-- Association-list update/insert, modelling `state[key] = v`. -/
def setA [BEq κ] : List (κ × β) → κ → β → List (κ × β)
  | [], s, v => [(s, v)]
  | (k, w) :: rest, s, v =>
    if k == s then (k, v) :: rest else (k, w) :: setA rest s v

/-- JavaScript truthiness of `state[source]`: `undefined`, `NaN` and `0`
are falsy. -/
def jsTruthyBal : Option JNum → Bool
  | none => false
  | some JNum.nan => false
  | some (JNum.num b) => !(b == 0)

/-- JavaScript `state[source] >= amount`: comparisons against `undefined`
(coerced `NaN`) or `NaN` are false. -/
def jsGE (bal : Option JNum) (a : Int) : Bool :=
  match bal with
  | some (JNum.num b) => decide (a ≤ b)
  | _ => false

/-- JavaScript `state[source] -= amount`. -/
def jsSub (bal : Option JNum) (a : Int) : JNum :=
  match bal with
  | some (JNum.num b) => JNum.num (b - a)
  | _ => JNum.nan

/-- JavaScript `state[recipient] += amount`: crediting an account with no
prior entry computes `undefined + amount`, which is `NaN`. -/
def jsAdd (bal : Option JNum) (a : Int) : JNum :=
  match bal with
  | some (JNum.num b) => JNum.num (b + a)
  | _ => JNum.nan

/-- The accumulator of the `enoughFunds` reduce in `isValidMineableChain`:
`{ isValid: true }` plus one dynamic property per identity. -/
structure ReplayState where
  isValid : Bool
  balances : List (String × JNum)
deriving DecidableEq

def initReplayState : ReplayState :=
  { isValid := true, balances := [] }

/-- One step of the `enoughFunds` reduce in `isValidMineableChain`,
transcribed from the source: early return once invalid; debit guarded by
truthiness and `>=`; the `amount === 0` bootstrap; credit via `+=` only
while still valid. -/
def replayStep (st : ReplayState) (txn : MineableTransaction) : ReplayState :=
  if !st.isValid then st
  else
    let st1 :=
      if jsTruthyStr txn.source then
        let s := jsStringOf txn.source
        let bal := lookupA st.balances s
        if jsTruthyBal bal && jsGE bal txn.amount then
          { st with balances := setA st.balances s (jsSub bal txn.amount) }
        else if txn.amount == 0 then
          { st with balances := setA st.balances s (JNum.num txn.amount) }
        else
          { st with isValid := false }
      else st
    if st1.isValid then
      { st1 with
        balances := setA st1.balances txn.recipient
          (jsAdd (lookupA st1.balances txn.recipient) txn.amount) }
    else st1

/-- All transactions of a chain in replay order: the
`map(block => block.transactions).reduce((acc, b) => acc.concat(b), [])`
of `isValidMineableChain`. -/
def chainTransactions (c : MineableChain) : List MineableTransaction :=
  (c.blocks.map (fun b => b.transactions)).flatten

/-- The `enoughFunds` accumulator after the whole reduce of
`isValidMineableChain`. -/
def enoughFundsState (c : MineableChain) : ReplayState :=
  (chainTransactions c).foldl replayStep initReplayState

/-- `isValidMineableChain`, transcribed from the source. The `validHashes`
map throws (`none`) if any non-genesis block's hash is absent; the other
three checks cannot throw. -/
def isValidMineableChainJS (c : MineableChain) : Option Bool :=
  match mapThrow (fun b => leadingZerosJS b.hash c.difficulty) (c.blocks.drop 1) with
  | none => none
  | some zs =>
    let validHashes := !(includes zs false)
    let oneRewardPerBlock :=
      !(includes (c.blocks.map (fun b =>
          decide ((b.transactions.filter (fun t => t.source == none)).length > 1))) true)
    let notTamperedReward :=
      decide (((c.blocks.map (fun b =>
          b.transactions.filter (fun t =>
            t.source == none && !(t.amount == c.reward)))).filter (fun res =>
              !(decide (res.length = 0)))).length = 0)
    some (validHashes && oneRewardPerBlock && notTamperedReward
      && (enoughFundsState c).isValid)

/-- `isValidTransaction` from the structural validator:
negative amounts rejected, then
`verify(t.source, t.source + t.recipient + t.amount, t.signature)`. -/
def isValidTransactionJS (t : MineableTransaction) : Bool :=
  if t.amount < 0 then false
  else verifyJS t.source
    (jsStringOf t.source ++ t.recipient ++ toString t.amount) t.signature

/-- Modelled from the spec (§4.3, §6): the base `Block.verifyHash`,
recomputing the hash from the block's current contents. -/
def verifyHash (H : HashFn) (b : MineableBlock) : String :=
  H b.transactions b.previousHash b.nonce

/-- `isValidBlock` from the structural validator: every transaction valid
and `block.verifyHash() === block.hash` (false when the stored hash is
absent, since `verifyHash` returns a string). -/
def isValidBlockJS (H : HashFn) (b : MineableBlock) : Bool :=
  let transactionValidity := !(includes (b.transactions.map isValidTransactionJS) false)
  let blockValidity := some (verifyHash H b) == b.hash
  transactionValidity && blockValidity

/-- `isValidChain` from the structural validator, transcribed from the
source. On an empty `blocks` array JavaScript throws (property access on an
`undefined` genesis), modelled as `none`. -/
def isValidChainJS (H : HashFn) (c : MineableChain) : Option Bool :=
  match c.blocks with
  | [] => none
  | g :: _ =>
    let hashes := c.blocks.map (fun b => b.hash)
    let pHashes := c.blocks.map (fun b => b.previousHash)
    let notNullHash := !(includes hashes none)
    let validBlocks := !(includes (c.blocks.map (isValidBlockJS H)) false)
    if !(g.previousHash == none) || !(decide (g.transactions.length = 0)) then
      some false
    else
      let matchingHashes :=
        !(includes (List.zipWith (fun h ph => h == ph)
            (hashes.take (hashes.length - 1)) (pHashes.drop 1)) false)
      some (notNullHash && validBlocks && matchingHashes)

/-- The proof-of-work loop's exit test at nonce `i`:
`newBlock.hash && leadingZeros(newBlock.hash, difficulty)` after
`calculateHash(i)` (a freshly computed hash is a string; the empty string
would be falsy). -/
def powHit (H : HashFn) (txs : List MineableTransaction) (prev : Option String)
    (d : Nat) (i : Nat) : Bool :=
  let h := H txs prev (some i)
  !(h == "") && leadingZeros h d

/-- The unbounded `while` of `mine`, made total with explicit fuel: the
least nonce `≥ i` hitting `p` within `fuel` attempts. -/
def findNonce (p : Nat → Bool) : Nat → Nat → Option Nat
  | 0, _ => none
  | fuel + 1, i => if p i then some i else findNonce p fuel (i + 1)

/-- The mutations `mine` performs before the proof-of-work search, in
source order: push the reward transaction onto the pending queue, snapshot
it with the head block's hash as the new block's contents, and reset
`pendingTransactions` to `[]`. Returns the chain as it stands when the
nonce search begins, with the snapshot and `previousHash`; `none` models
the `TypeError` on an empty `blocks` array (`getHeadBlock()` undefined). -/
def minePrepare (c : MineableChain) (k : String) :
    Option (MineableChain × List MineableTransaction × Option String) :=
  match c.blocks.getLast? with
  | none => none
  | some hb =>
    let pending := c.pendingTransactions ++ [mkMineableTransaction k none c.reward]
    some ({ c with pendingTransactions := [] }, pending, hb.hash)

/-- `mine(privateKey)`: prepare (reward pushed, snapshot taken, queue
cleared), then the nonce search from 0, then push the completed block.
`none` means the search did not finish within `fuel` (the JavaScript loop
would still be running) or the chain had no head block. -/
def mine (H : HashFn) (c : MineableChain) (k : String) (fuel : Nat) :
    Option MineableChain :=
  match minePrepare c k with
  | none => none
  | some (c1, pending, prevHash) =>
    match findNonce (powHit H pending prevHash c.difficulty) fuel 0 with
    | none => none
    | some n =>
      some { c1 with blocks := c1.blocks ++
        [{ transactions := pending
           previousHash := prevHash
           nonce := some n
           hash := some (H pending prevHash (some n)) }] }

/-- Modelled from the spec: the §4.4 reference ledger-replay state — a
mapping identity → balance plus a validity flag. -/
structure SpecLedgerState where
  isValid : Bool
  balances : List (String × Int)
deriving DecidableEq

def initSpecLedgerState : SpecLedgerState :=
  { isValid := true, balances := [] }

/-- Modelled from the spec: one §4.4 reference replay step, following the
spec's words — absent source skips the debit; a tracked balance ≥ amount is
debited; otherwise a zero amount records a balance of 0; otherwise the
result is marked invalid but processing continues; the credit to the
recipient creates the balance at the amount if absent. -/
def specReplayStep (st : SpecLedgerState) (txn : MineableTransaction) :
    SpecLedgerState :=
  let st1 :=
    match txn.source with
    | none => st
    | some s =>
      match lookupA st.balances s with
      | some b =>
        if txn.amount ≤ b then
          { st with balances := setA st.balances s (b - txn.amount) }
        else if txn.amount = 0 then
          { st with balances := setA st.balances s 0 }
        else
          { st with isValid := false }
      | none =>
        if txn.amount = 0 then
          { st with balances := setA st.balances s 0 }
        else
          { st with isValid := false }
  { st1 with
    balances := setA st1.balances txn.recipient
      ((lookupA st1.balances txn.recipient).getD 0 + txn.amount) }

/-- Modelled from the spec: the §4.4 reference replay over a whole chain. -/
def specLedgerState (c : MineableChain) : SpecLedgerState :=
  (chainTransactions c).foldl specReplayStep initSpecLedgerState

/-! ## Concrete instances used by evaluation theorems -/

/-- A concrete hash primitive used to instantiate the abstract `HashFn` in
evaluation theorems: every digest starts with two zero hex characters, so a
difficulty-2 search succeeds at nonce 0. -/
def H0 : HashFn := fun _ _ n => "00" ++ toString (n.getD 0)

/-- The reward transaction mined with key "A" at reward 5. -/
def rewardTxA : MineableTransaction := mkMineableTransaction "A" none 5

/-- The chain obtained from a fresh chain by mining one block with key "A"
under `H0` (checked against `mine` by `decide` where used). -/
def chainA : MineableChain :=
  { blocks := [genesisBlock H0,
      { transactions := [rewardTxA]
        previousHash := some "000"
        nonce := some 0
        hash := some "000" }]
    difficulty := 2
    reward := 5
    pendingTransactions := [] }

/-- The §8 end-to-end scenario: mine a block rewarding "A" from an empty
queue, queue a transfer of 3 from "A" to "B", mine a second block rewarding
the miner "M". -/
def scenarioChain : Option MineableChain :=
  (mine H0 (mineableChainNew H0) "A" 4).bind (fun cA =>
    mine H0 (addTransaction cA
      (mkMineableTransaction "A" (some (getPublicKey "B")) 3)) "M" 4)

/-- A two-block chain whose second block holds a reward of 5 to "M"
followed by a transfer of the full 5 from "M" — spendable per the spec's
replay, rejected by the code's replay. -/
def chainX : MineableChain :=
  { blocks := [genesisBlock H0,
      { transactions := [mkMineableTransaction "M" none 5,
                         mkMineableTransaction "M" (some "X") 5]
        previousHash := some "p"
        nonce := some 0
        hash := some "00x" }]
    difficulty := 2
    reward := 5
    pendingTransactions := [] }

/-- A chain containing a non-genesis block whose hash is absent (an unmined
`MineableBlock`). -/
def badHashChain : MineableChain :=
  { blocks := [genesisBlock H0,
      { transactions := [], previousHash := some "p", nonce := none, hash := none }]
    difficulty := 2
    reward := 5
    pendingTransactions := [] }

/-- A one-block chain whose genesis has a non-absent `previousHash`. -/
def badPrevChain : MineableChain :=
  { blocks := [{ transactions := [], previousHash := some "z",
                 nonce := some 0, hash := some "000" }]
    difficulty := 2
    reward := 5
    pendingTransactions := [] }

/-! ## Helper lemmas -/

/-- A successful fuelled nonce search returns the least hit at or above the
start index. -/
theorem findNonce_eq_some (p : Nat → Bool) :
    ∀ fuel i n, findNonce p fuel i = some n →
      p n = true ∧ i ≤ n ∧ ∀ m, i ≤ m → m < n → p m = false := by
  intro fuel
  induction fuel with
  | zero => intro i n h; exact absurd h (by simp [findNonce])
  | succ f ih =>
    intro i n h
    simp only [findNonce] at h
    by_cases hp : p i = true
    · rw [if_pos hp] at h
      obtain rfl : i = n := Option.some.inj h
      exact ⟨hp, Nat.le_refl i, fun m h1 h2 => absurd h2 (Nat.not_lt.mpr h1)⟩
    · rw [if_neg hp] at h
      obtain ⟨h1, h2, h3⟩ := ih (i + 1) n h
      refine ⟨h1, Nat.le_trans (Nat.le_succ i) h2, fun m hm1 hm2 => ?_⟩
      rcases Nat.lt_or_ge m (i + 1) with hlt | hge
      · have hmi : m = i := Nat.le_antisymm (Nat.lt_succ_iff.mp hlt) hm1
        subst hmi
        exact Bool.eq_false_iff.mpr hp
      · exact h3 m hge hm2

/-- Destructuring a successful `mine`: the head block, the winning nonce,
and the exact shape of the resulting chain. -/
theorem mine_eq_some (H : HashFn) (c : MineableChain) (k : String) (fuel : Nat)
    (c2 : MineableChain) (h : mine H c k fuel = some c2) :
    ∃ hb n, c.blocks.getLast? = some hb ∧
      findNonce (powHit H (c.pendingTransactions ++ [mkMineableTransaction k none c.reward])
        hb.hash c.difficulty) fuel 0 = some n ∧
      c2 = { blocks := c.blocks ++
               [{ transactions := c.pendingTransactions ++ [mkMineableTransaction k none c.reward]
                  previousHash := hb.hash
                  nonce := some n
                  hash := some (H (c.pendingTransactions ++ [mkMineableTransaction k none c.reward])
                    hb.hash (some n)) }]
             difficulty := c.difficulty
             reward := c.reward
             pendingTransactions := [] } := by
  unfold mine minePrepare at h
  cases hlast : c.blocks.getLast? with
  | none => rw [hlast] at h; exact absurd h (by simp)
  | some hb =>
    rw [hlast] at h
    simp only at h
    cases hfind : findNonce (powHit H
        (c.pendingTransactions ++ [mkMineableTransaction k none c.reward])
        hb.hash c.difficulty) fuel 0 with
    | none => rw [hfind] at h; exact absurd h (by simp)
    | some n =>
      rw [hfind] at h
      simp only at h
      exact ⟨hb, n, rfl, hfind, (Option.some.inj h).symm⟩

/-- `includes` over a mapped list detects exactly the preimages of the
sought value. -/
theorem includes_map_eq_true [BEq β] [LawfulBEq β] (f : α → β) (a : β) :
    ∀ l : List α, includes (l.map f) a = true ↔ ∃ x ∈ l, f x = a := by
  intro l
  induction l with
  | nil => simp [includes]
  | cons x l ih =>
    simp [includes, ih, List.mem_cons]

/-- The `matchingHashes` expression of `isValidChain` holds exactly when
each block's hash equals the `previousHash` recorded by its successor. -/
theorem matching_iff_chain :
    ∀ bs : List MineableBlock,
      (!(includes (List.zipWith (fun h ph => h == ph)
          ((bs.map (fun b => b.hash)).take ((bs.map (fun b => b.hash)).length - 1))
          ((bs.map (fun b => b.previousHash)).drop 1)) false)) = true ↔
        List.Chain' (fun a b => a.hash = b.previousHash) bs := by
  intro bs
  induction bs with
  | nil => simp [includes]
  | cons a tail ih =>
    cases tail with
    | nil => simp [includes, List.chain'_singleton]
    | cons b l =>
      rw [List.chain'_cons, ← ih]
      simp only [List.map_cons, List.length_cons, Nat.add_sub_cancel,
        List.take_succ_cons, List.drop_succ_cons, List.drop_zero,
        List.zipWith_cons_cons]
      rw [includes, Bool.not_or, Bool.and_eq_true]
      exact and_congr (by simp) Iff.rfl

/-- A block whose stored hash is absent always fails `isValidBlock`
(`verifyHash` returns a string). -/
theorem isValidBlock_hash_none (H : HashFn) (b : MineableBlock)
    (hb : b.hash = none) : isValidBlockJS H b = false := by
  simp [isValidBlockJS, hb]

/-- A throwing map succeeds exactly when the callback succeeds on every
element. -/
theorem mapThrow_isSome_iff (f : α → Option β) :
    ∀ l : List α, (mapThrow f l).isSome = true ↔ ∀ x ∈ l, (f x).isSome = true := by
  intro l
  induction l with
  | nil => simp [mapThrow]
  | cons a l ih =>
    cases hfa : f a with
    | none =>
      have hm : mapThrow f (a :: l) = none := by simp [mapThrow, hfa]
      rw [hm]
      constructor
      · intro h; simp at h
      · intro h
        have ha := h a (List.mem_cons_self a l)
        rw [hfa] at ha
        simp at ha
    | some b =>
      cases hml : mapThrow f l with
      | none =>
        have hm : mapThrow f (a :: l) = none := by simp [mapThrow, hfa, hml]
        rw [hm]
        rw [hml] at ih
        constructor
        · intro h; simp at h
        · intro h
          have h2 : ∀ x ∈ l, (f x).isSome = true :=
            fun x hx => h x (List.mem_cons_of_mem a hx)
          have h3 := ih.mpr h2
          simp at h3
      | some bs =>
        have hm : mapThrow f (a :: l) = some (b :: bs) := by simp [mapThrow, hfa, hml]
        rw [hm]
        rw [hml] at ih
        constructor
        · intro _ x hx
          rcases List.mem_cons.mp hx with rfl | hx2
          · rw [hfa]; rfl
          · exact (ih.mp rfl) x hx2
        · intro _; rfl

/-- Unfolding of `isValidChainJS` on a non-empty chain. -/
theorem isValidChainJS_cons (H : HashFn) (g : MineableBlock)
    (rest : List MineableBlock) (d : Nat) (r : Int)
    (p : List MineableTransaction) :
    isValidChainJS H
      { blocks := g :: rest, difficulty := d, reward := r,
        pendingTransactions := p } =
      (if !(g.previousHash == none) || !(decide (g.transactions.length = 0))
       then some false
       else some ((!(includes ((g :: rest).map (fun b => b.hash)) none))
         && (!(includes ((g :: rest).map (isValidBlockJS H)) false))
         && (!(includes (List.zipWith (fun h ph => h == ph)
               (((g :: rest).map (fun b => b.hash)).take
                 (((g :: rest).map (fun b => b.hash)).length - 1))
               (((g :: rest).map (fun b => b.previousHash)).drop 1)) false)))) := rfl

/-- `b = false` as a negation, for rewriting boolean verdicts. -/
theorem bool_eq_false_iff (b : Bool) : b = false ↔ ¬ b = true := by
  cases b <;> simp

/-- `(!b) = true` as a negation. -/
theorem bool_not_eq_true_iff (b : Bool) : (!b) = true ↔ ¬ b = true := by
  cases b <;> simp

/-- C6: `isValidChain` returns false exactly when the genesis block's
`previousHash` is non-absent or its transaction sequence is non-empty, or
some non-genesis block has an absent hash, or some block's hash differs
from the `previousHash` recorded by its immediate successor, or some block
fails `isValidBlock`; otherwise it returns true. (A chain whose genesis
block has an absent hash but satisfies all the listed conditions would
therefore be reported valid; no listed condition inspects the genesis
hash directly.) -/
theorem isValidChain_false_iff (H : HashFn) (c : MineableChain)
    (g : MineableBlock) (rest : List MineableBlock) (hc : c.blocks = g :: rest) :
    isValidChainJS H c = some false ↔
      g.previousHash ≠ none ∨ g.transactions ≠ [] ∨
      (∃ b ∈ rest, b.hash = none) ∨
      ¬ List.Chain' (fun a b => a.hash = b.previousHash) (g :: rest) ∨
      (∃ b ∈ g :: rest, isValidBlockJS H b = false) := by
  obtain ⟨bs, d, r, p⟩ := c
  have hb : bs = g :: rest := hc
  subst hb
  rw [isValidChainJS_cons]
  by_cases h1 : g.previousHash = none
  · by_cases h2 : g.transactions = []
    · have hcnot :
          ¬((!(g.previousHash == none) || !(decide (g.transactions.length = 0))) = true) := by
        simp [h1, h2]
      rw [if_neg hcnot, Option.some.injEq]
      have hA := includes_map_eq_true (fun b : MineableBlock => b.hash)
        (none : Option String) (g :: rest)
      have hB := includes_map_eq_true (isValidBlockJS H) false (g :: rest)
      have hC := matching_iff_chain (g :: rest)
      conv_lhs => rw [bool_eq_false_iff, Bool.and_eq_true, Bool.and_eq_true, hC,
        bool_not_eq_true_iff, bool_not_eq_true_iff, hA, hB]
      constructor
      · intro hne
        by_cases hch : List.Chain' (fun a b : MineableBlock => a.hash = b.previousHash) (g :: rest)
        · by_cases hpb : ∃ b ∈ g :: rest, isValidBlockJS H b = false
          · exact Or.inr (Or.inr (Or.inr (Or.inr hpb)))
          · have hpa : ∃ b ∈ g :: rest, b.hash = none := by
              by_contra hpa
              exact hne ⟨⟨hpa, hpb⟩, hch⟩
            obtain ⟨b, hmem, hbh⟩ := hpa
            rcases List.mem_cons.mp hmem with rfl | hmem2
            · exact Or.inr (Or.inr (Or.inr (Or.inr
                ⟨b, List.mem_cons_self b rest, isValidBlock_hash_none H b hbh⟩)))
            · exact Or.inr (Or.inr (Or.inl ⟨b, hmem2, hbh⟩))
        · exact Or.inr (Or.inr (Or.inr (Or.inl hch)))
      · rintro (hd1 | hd2 | ⟨b, hmem, hbh⟩ | hch | hpb)
        · exact absurd h1 hd1
        · exact absurd h2 hd2
        · exact fun hx => hx.1.1 ⟨b, List.mem_cons_of_mem g hmem, hbh⟩
        · exact fun hx => hch hx.2
        · exact fun hx => hx.1.2 hpb
    · have hlen : g.transactions.length ≠ 0 := by
        simpa [List.length_eq_zero] using h2
      have hcond :
          (!(g.previousHash == none) || !(decide (g.transactions.length = 0))) = true := by
        simp [hlen]
      rw [if_pos hcond]
      simp [h2]
  · have hne2 : (g.previousHash == none) = false := beq_eq_false_iff_ne.mpr h1
    have hcond :
        (!(g.previousHash == none) || !(decide (g.transactions.length = 0))) = true := by
      simp [hne2]
    rw [if_pos hcond]
    simp [h1]

/-- A throwing `leadingZeros` call succeeds exactly on a present hash. -/
theorem leadingZerosJS_isSome (h : Option String) (d : Nat) :
    (leadingZerosJS h d).isSome = true ↔ h ≠ none := by
  cases h <;> simp [leadingZerosJS]

/-- `isValidMineableChain` produces a verdict exactly when its
proof-of-work map does not throw. -/
theorem isValidMineableChainJS_isSome (c : MineableChain) :
    (isValidMineableChainJS c).isSome =
      (mapThrow (fun b => leadingZerosJS b.hash c.difficulty) (c.blocks.drop 1)).isSome := by
  unfold isValidMineableChainJS
  cases hm : mapThrow (fun b => leadingZerosJS b.hash c.difficulty) (c.blocks.drop 1) with
  | none => rfl
  | some zs => rfl

/-- Claim C5 (amended): `isValidTransaction` and `isValidBlock` are total
boolean functions by construction; `isValidChain` returns a boolean verdict
on every chain with at least one block; `isValidMineableChain` returns a
boolean verdict exactly when every non-genesis block's hash is present — on
a chain containing a non-genesis block with an absent or `null` hash it
throws a `TypeError` (`leadingZeros` slices the hash). -/
theorem validators_total_unless_absent_hash (H : HashFn) (c : MineableChain) :
    (c.blocks ≠ [] → (isValidChainJS H c).isSome = true) ∧
    ((isValidMineableChainJS c).isSome = true ↔
      ∀ b ∈ c.blocks.drop 1, b.hash ≠ none) := by
  constructor
  · intro hne
    obtain ⟨bs, d, r, p⟩ := c
    cases bs with
    | nil => exact absurd rfl hne
    | cons g rest =>
      rw [isValidChainJS_cons]
      by_cases hcond :
          (!(g.previousHash == none) || !(decide (g.transactions.length = 0))) = true
      · rw [if_pos hcond]; rfl
      · rw [if_neg hcond]; rfl
  · rw [isValidMineableChainJS_isSome, mapThrow_isSome_iff]
    constructor
    · intro h b hb
      exact (leadingZerosJS_isSome b.hash c.difficulty).mp (h b hb)
    · intro h b hb
      exact (leadingZerosJS_isSome b.hash c.difficulty).mpr (h b hb)

/-- Claim C5 (counterexample): on a chain containing a non-genesis block
whose hash is absent, `isValidMineableChain` does not return a boolean
verdict — it throws (`none` in this embedding), refuting "no validator ever
throws" over all chain values. -/
theorem mineable_validator_throws_on_absent_hash :
    isValidMineableChainJS badHashChain = none := by decide

/-- Claim C5 (witness): the amended totality statement applied to the
concrete hash `H0` and a freshly constructed chain. -/
theorem validators_total_unless_absent_hash_app :
    (isValidChainJS H0 (mineableChainNew H0)).isSome = true ∧
    (isValidMineableChainJS (mineableChainNew H0)).isSome = true := by
  have h := validators_total_unless_absent_hash H0 (mineableChainNew H0)
  exact ⟨h.1 (by decide), h.2.mpr (by decide)⟩

/-- Claim C6 (witness): the biconditional applied to a concrete one-block
chain whose genesis has a non-absent `previousHash`. -/
theorem isValidChain_false_iff_app :
    isValidChainJS H0 badPrevChain = some false :=
  (isValidChain_false_iff H0 badPrevChain
    { transactions := [], previousHash := some "z", nonce := some 0, hash := some "000" }
    [] rfl).mpr (Or.inl (by decide))

/-- Claim C3: whenever `mine` terminates, the single block it appends
carries a hash computed from its contents at some nonce `n`, that hash has
at least `difficulty` leading `'0'` characters, and `n` is the least nonce
whose hash passes the test — nonces are tried in increasing order from 0. -/
theorem mine_pow_leading_zeros (H : HashFn) (c : MineableChain) (k : String)
    (fuel : Nat) (c2 : MineableChain) (h : mine H c k fuel = some c2) :
    ∃ b n hs, c2.blocks = c.blocks ++ [b] ∧ b.nonce = some n ∧ b.hash = some hs ∧
      hs = H b.transactions b.previousHash (some n) ∧
      leadingZeros hs c.difficulty = true ∧
      ∀ m, m < n → powHit H b.transactions b.previousHash c.difficulty m = false := by
  obtain ⟨hb, n, hlast, hfind, rfl⟩ := mine_eq_some H c k fuel c2 h
  obtain ⟨hhit, _, hmin⟩ := findNonce_eq_some _ fuel 0 n hfind
  refine ⟨_, n, _, rfl, rfl, rfl, rfl, ?_, ?_⟩
  · have h2 := hhit
    simp only [powHit, Bool.and_eq_true] at h2
    exact h2.2
  · intro m hm
    exact hmin m (Nat.zero_le m) hm

/-- Claim C3 (witness): mining one block on a fresh chain with the concrete
hash `H0` terminates at nonce 0 and satisfies the proof-of-work property. -/
theorem mine_pow_leading_zeros_app :
    ∃ b n hs, chainA.blocks = (mineableChainNew H0).blocks ++ [b] ∧
      b.nonce = some n ∧ b.hash = some hs ∧
      hs = H0 b.transactions b.previousHash (some n) ∧
      leadingZeros hs (mineableChainNew H0).difficulty = true ∧
      ∀ m, m < n →
        powHit H0 b.transactions b.previousHash (mineableChainNew H0).difficulty m = false :=
  mine_pow_leading_zeros H0 (mineableChainNew H0) "A" 4 chainA (by decide)

/-- Claim C7: `mine` pushes the reward transaction after all queued
transactions, snapshots that sequence as the new block's transactions with
`previousHash` taken from the current head block, and resets
`pendingTransactions` to empty in the prepare phase — before the nonce
search runs; when `mine` returns, the pending queue is empty and the only
other change is `blocks` gaining exactly the one new block (difficulty,
reward and the prior blocks unchanged). -/
theorem mine_frame_effects (H : HashFn) (c : MineableChain) (k : String)
    (fuel : Nat) (c2 : MineableChain) (h : mine H c k fuel = some c2) :
    (∀ c1 pending ph, minePrepare c k = some (c1, pending, ph) →
      c1.pendingTransactions = [] ∧ c1.blocks = c.blocks ∧
      c1.difficulty = c.difficulty ∧ c1.reward = c.reward ∧
      pending = c.pendingTransactions ++ [mkMineableTransaction k none c.reward] ∧
      ∃ hb, c.blocks.getLast? = some hb ∧ ph = hb.hash) ∧
    c2.pendingTransactions = [] ∧ c2.difficulty = c.difficulty ∧ c2.reward = c.reward ∧
    ∃ b, c2.blocks = c.blocks ++ [b] ∧
      b.transactions = c.pendingTransactions ++ [mkMineableTransaction k none c.reward] ∧
      ∃ hb, c.blocks.getLast? = some hb ∧ b.previousHash = hb.hash := by
  obtain ⟨hb, n, hlast, hfind, rfl⟩ := mine_eq_some H c k fuel c2 h
  refine ⟨?_, rfl, rfl, rfl, _, rfl, rfl, hb, hlast, rfl⟩
  intro c1 pending ph hp
  unfold minePrepare at hp
  rw [hlast] at hp
  simp only [Option.some.injEq, Prod.mk.injEq] at hp
  obtain ⟨h1, h2, h3⟩ := hp
  subst h1
  subst h2
  subst h3
  exact ⟨rfl, rfl, rfl, rfl, rfl, hb, hlast, rfl⟩

/-- Claim C7 (witness): the frame conditions of `mine`, instantiated on a
fresh chain mined with key "A" under `H0`. -/
theorem mine_frame_effects_app :
    (∀ c1 pending ph, minePrepare (mineableChainNew H0) "A" = some (c1, pending, ph) →
      c1.pendingTransactions = [] ∧ c1.blocks = (mineableChainNew H0).blocks ∧
      c1.difficulty = (mineableChainNew H0).difficulty ∧
      c1.reward = (mineableChainNew H0).reward ∧
      pending = (mineableChainNew H0).pendingTransactions ++
        [mkMineableTransaction "A" none (mineableChainNew H0).reward] ∧
      ∃ hb, (mineableChainNew H0).blocks.getLast? = some hb ∧ ph = hb.hash) ∧
    chainA.pendingTransactions = [] ∧
    chainA.difficulty = (mineableChainNew H0).difficulty ∧
    chainA.reward = (mineableChainNew H0).reward ∧
    ∃ b, chainA.blocks = (mineableChainNew H0).blocks ++ [b] ∧
      b.transactions = (mineableChainNew H0).pendingTransactions ++
        [mkMineableTransaction "A" none (mineableChainNew H0).reward] ∧
      ∃ hb, (mineableChainNew H0).blocks.getLast? = some hb ∧ b.previousHash = hb.hash :=
  mine_frame_effects H0 (mineableChainNew H0) "A" 4 chainA (by decide)

/-- Claim C10: a freshly constructed chain has difficulty 2, reward 5 and an
empty pending queue, and neither `addTransaction` nor a successful `mine`
changes `difficulty` or `reward` (the validators are read-only functions of
the chain by construction). -/
theorem policy_constants_fixed (H : HashFn) (c : MineableChain)
    (t : MineableTransaction) (k : String) (fuel : Nat) (c2 : MineableChain)
    (h : mine H c k fuel = some c2) :
    (mineableChainNew H).difficulty = 2 ∧ (mineableChainNew H).reward = 5 ∧
    (mineableChainNew H).pendingTransactions = [] ∧
    (addTransaction c t).difficulty = c.difficulty ∧
    (addTransaction c t).reward = c.reward ∧
    c2.difficulty = c.difficulty ∧ c2.reward = c.reward := by
  obtain ⟨hb, n, hlast, hfind, rfl⟩ := mine_eq_some H c k fuel c2 h
  exact ⟨rfl, rfl, rfl, rfl, rfl, rfl, rfl⟩

/-- Claim C10 (witness): the policy constants, instantiated on a fresh
chain, an arbitrary queued transaction, and the concrete mine of `chainA`. -/
theorem policy_constants_fixed_app :
    (mineableChainNew H0).difficulty = 2 ∧ (mineableChainNew H0).reward = 5 ∧
    (mineableChainNew H0).pendingTransactions = [] ∧
    (addTransaction (mineableChainNew H0) rewardTxA).difficulty =
      (mineableChainNew H0).difficulty ∧
    (addTransaction (mineableChainNew H0) rewardTxA).reward =
      (mineableChainNew H0).reward ∧
    chainA.difficulty = (mineableChainNew H0).difficulty ∧
    chainA.reward = (mineableChainNew H0).reward :=
  policy_constants_fixed H0 (mineableChainNew H0) rewardTxA "A" 4 chainA (by decide)

/-- Claim C4 (counterexample): for the reward transaction built from key
"A" with omitted recipient and amount 5, the stored signature does not sign
the message built from the stored recipient field — the constructor signs
the `recipient` argument (`null`), not `this.recipient`. -/
theorem reward_signature_message_mismatch :
    ¬ ((mkMineableTransaction "A" none 5).signature =
      sign "A" (jsStringOf (mkMineableTransaction "A" none 5).source
        ++ (mkMineableTransaction "A" none 5).recipient
        ++ toString (mkMineableTransaction "A" none 5).amount)) := by decide

/-- Claim C4 (amended): every constructed transaction's stored signature
equals `sign(privateKey, m)` where `m` concatenates the stored source (null
sentinel when absent), the constructor's `recipient` argument (null
sentinel when omitted), and the decimal amount; for transfers (a provided,
non-empty recipient) the argument coincides with the stored recipient
field, so the original claim holds there. -/
theorem signature_uses_recipient_argument (k : String) (r : Option String) (a : Int) :
    (mkMineableTransaction k r a).signature =
      sign k (jsStringOf (mkMineableTransaction k r a).source
        ++ jsStringOf r ++ toString a) ∧
    (∀ s, r = some s → ¬ s = "" →
      (mkMineableTransaction k r a).signature =
        sign k (jsStringOf (mkMineableTransaction k r a).source
          ++ (mkMineableTransaction k r a).recipient ++ toString a)) := by
  constructor
  · rfl
  · intro s hs hne
    subst hs
    simp [mkMineableTransaction, jsTruthyStr, jsStringOf, hne]

/-- Claim C4 (witness): the amended statement applied to the transfer built
from key "A", recipient "B", amount 3. -/
theorem signature_uses_recipient_argument_app :
    (mkMineableTransaction "A" (some "B") 3).signature =
      sign "A" (jsStringOf (mkMineableTransaction "A" (some "B") 3).source
        ++ (mkMineableTransaction "A" (some "B") 3).recipient ++ toString (3 : Int)) :=
  (signature_uses_recipient_argument "A" (some "B") 3).2 "B" rfl (by decide)

/-- Claim C9 (counterexample): at the provided (non-null) recipient `""`,
the constructed transaction is not the claimed transfer — JavaScript treats
the empty string as falsy, so the transaction is built as a reward with
`source = null` and `recipient` the signer's public key. -/
theorem empty_recipient_not_transfer :
    ¬ ((mkMineableTransaction "k" (some "") 5).source = some (getPublicKey "k") ∧
       (mkMineableTransaction "k" (some "") 5).recipient = "" ∧
       isValidTransactionJS (mkMineableTransaction "k" (some "") 5) = true) := by decide

/-- Claim C9 (amended): for every private key, every provided non-empty
recipient and every amount ≥ 0, the constructed transaction is a transfer —
source is the signer's public key, recipient is the given value — and
`isValidTransaction` accepts it (sign-then-verify round-trip through the
canonical message encoding). -/
theorem transfer_valid_roundtrip (k r : String) (a : Int)
    (hr : ¬ r = "") (ha : 0 ≤ a) :
    (mkMineableTransaction k (some r) a).source = some (getPublicKey k) ∧
    (mkMineableTransaction k (some r) a).recipient = r ∧
    isValidTransactionJS (mkMineableTransaction k (some r) a) = true := by
  have htr : jsTruthyStr (some r) = true := by simp [jsTruthyStr, hr]
  refine ⟨?_, ?_, ?_⟩
  · simp [mkMineableTransaction, htr]
  · simp [mkMineableTransaction, htr]
  · simp only [isValidTransactionJS, mkMineableTransaction, htr, if_true]
    rw [if_neg (by exact not_lt.mpr ha)]
    simp [verifyJS, verify, sign, jsStringOf]

/-- Claim C9 (witness): the amended round-trip applied to key "A",
recipient "B", amount 3. -/
theorem transfer_valid_roundtrip_app :
    (mkMineableTransaction "A" (some "B") 3).source = some (getPublicKey "A") ∧
    (mkMineableTransaction "A" (some "B") 3).recipient = "B" ∧
    isValidTransactionJS (mkMineableTransaction "A" (some "B") 3) = true :=
  transfer_valid_roundtrip "A" "B" 3 (by decide) (by decide)

/-- Claim C1: evaluating the §8 end-to-end scenario (difficulty 2, reward
5; mine a block rewarding "A" from an empty queue, queue a transfer of 3
from "A" to "B", mine a second block rewarding the miner "M"). The code's
`isValidMineableChain` returns false — crediting the untracked recipient
"A" computes `undefined + 5 = NaN`, so the later transfer of 3 marks the
replay invalid — while the spec's reference replay accepts the chain with
the claimed final balances A = 2, B = 3, minerB = 5. -/
theorem mining_scenario_rejected_by_code :
    scenarioChain.map isValidMineableChainJS = some (some false) ∧
    scenarioChain.map (fun c => ((specLedgerState c).isValid,
      lookupA (specLedgerState c).balances (getPublicKey "A"),
      lookupA (specLedgerState c).balances (getPublicKey "B"),
      lookupA (specLedgerState c).balances (getPublicKey "M"))) =
      some (true, some 2, some 3, some 5) := by decide

/-- Claim C2: the credit step of the code's ledger replay does not create an
absent recipient balance at the transaction's amount — `state[recipient] +=
amount` on an absent entry computes `undefined + amount`, leaving `NaN`
(unusable for later debits) — whereas the spec's reference credit creates
the balance at exactly the amount. Evaluated on a reward of 5 to "A"
processed from the empty initial state. -/
theorem credit_step_yields_nan :
    lookupA ((replayStep initReplayState (mkMineableTransaction "A" none 5)).balances)
      (getPublicKey "A") = some JNum.nan ∧
    lookupA ((specReplayStep initSpecLedgerState (mkMineableTransaction "A" none 5)).balances)
      (getPublicKey "A") = some 5 := by decide

/-- Claim C8: the ledger-replay step of `isValidMineableChain`
(`enoughFundsState`) is not equivalent to the §4.4 reference replay: on the
concrete chain whose second block rewards "M" with 5 and then transfers the
full 5 from "M", the code's replay reports invalid (the reward credit left
"M" at `NaN`) while the reference replay reports valid. -/
theorem code_replay_differs_from_spec_replay :
    (enoughFundsState chainX).isValid = false ∧
    (specLedgerState chainX).isValid = true := by decide
